import Mathlib

/-!
Verification development for the WireGuard MikroTik management repository.

The Python sources are shallowly embedded over `List Char`:

* `WireGuardConfigManager.get_peers_from_config` (menu/wireguard-menu.py)
  parses peer blocks with the regex
  `# (.+?)\n[Peer]\nPublicKey = (.+?)\nAllowedIPs = (.+?)(?=\n\n|\n#|\Z)`
  under `re.DOTALL`.  Because every delimiter in the pattern is a literal,
  every group is lazy, and the final alternative of the lookahead always
  matches at end of input, the leftmost match can be computed without
  backtracking: take the first occurrence of each delimiter in turn.  The
  functions `splitOn1`, `splitTerm` and `firstMatch` below implement exactly
  that, and `findAllPeersAux` iterates non-overlapping matches the way
  `re.findall` does (resuming at the zero-width lookahead position).
* `WireGuardConfigManager.add_peer` / `remove_peer` are embedded as pure
  functions from the old file content to the new file content, together with
  a trace of the file operations they perform.
* `WireGuardMikroTikService._get_next_available_ip`, `_is_valid_vpn_ip`,
  `get_router_vpn_status` and the merge loop of `WireGuardMenu.list_routers`
  are embedded with external effects (file reads, ping, API probe,
  exceptions) passed in as explicit parameters.
* `DatabaseManager.add_router` / `update_router` are embedded over an
  explicit list of rows, with the SQL side effects recorded as a trace.
-/

set_option maxRecDepth 100000
set_option linter.unusedVariables false

/-- Python whitespace for `str.strip` (ASCII subset). -/
def wsp (c : Char) : Bool :=
  decide (c = ' ' ∨ c = '\t' ∨ c = '\n' ∨ c = '\r' ∨ c = '\x0b' ∨ c = '\x0c')

/-- Drop trailing Python whitespace. -/
def dropTrail (l : List Char) : List Char :=
  (l.reverse.dropWhile wsp).reverse

/-- Python `str.strip()` on a list of characters. -/
def pyStrip (l : List Char) : List Char :=
  dropTrail (l.dropWhile wsp)

/-- Python `str.startswith` / list-prefix test on characters. -/
def charsPref : List Char → List Char → Bool
  | [], _ => true
  | _ :: _, [] => false
  | a :: p, b :: s => if a = b then charsPref p s else false

/-- Split `s` at the first occurrence of `pat`: returns the part before the
occurrence and the suffix beginning with the occurrence. -/
def splitOn1 (pat : List Char) : List Char → Option (List Char × List Char)
  | [] => if charsPref pat [] then some ([], []) else none
  | c :: t =>
    if charsPref pat (c :: t) then some ([], c :: t)
    else (splitOn1 pat t).map (fun q => (c :: q.1, q.2))

/-- Scan for the lookahead terminator of the peer-block regex: the first
position whose suffix is empty (regex end anchor) or starts with two
newlines or a newline followed by a hash.  Returns the consumed part and
the remaining suffix. -/
def splitTerm : List Char → List Char × List Char
  | [] => ([], [])
  | c :: t =>
    if c = '\n' ∧ (t.head? = some '\n' ∨ t.head? = some '#') then ([], c :: t)
    else
      let p := splitTerm t
      (c :: p.1, p.2)

/-- Literal delimiter between the name group and the public-key group of the
peer-block regex. -/
def lit1 : List Char := ("\n[Peer]\nPublicKey = ".data)

/-- Literal delimiter between the public-key group and the allowed-ips group
of the peer-block regex. -/
def lit2 : List Char := ("\nAllowedIPs = ".data)

/-- The leftmost match of the peer-block regex: the three (lazy, hence
minimal) groups and the suffix at which scanning resumes.  Each group must
consume at least one character.  If the downstream delimiters cannot be
found after the first comment marker they cannot be found after any later
one either, so a single attempt decides the whole scan. -/
def firstMatch (s : List Char) : Option ((List Char × List Char × List Char) × List Char) :=
  match splitOn1 ("# ".data) s with
  | none => none
  | some (_, t1) =>
    match t1.drop 2 with
    | [] => none
    | c :: u1 =>
      match splitOn1 lit1 u1 with
      | none => none
      | some (g1t, t2) =>
        match t2.drop lit1.length with
        | [] => none
        | d :: u2 =>
          match splitOn1 lit2 u2 with
          | none => none
          | some (g2t, t3) =>
            match t3.drop lit2.length with
            | [] => none
            | e :: u3 =>
              let pr := splitTerm u3
              some ((c :: g1t, d :: g2t, e :: pr.1), pr.2)

/-- Iterated non-overlapping matches, as `re.findall` produces them.  The
fuel argument only serves termination; `findAllPeers` supplies enough. -/
def findAllPeersAux : Nat → List Char → List (List Char × List Char × List Char)
  | 0, _ => []
  | fuel + 1, s =>
    match firstMatch s with
    | none => []
    | some (g, rest) => g :: findAllPeersAux fuel rest

/-- All peer-block matches of the configuration text. -/
def findAllPeers (s : List Char) : List (List Char × List Char × List Char) :=
  findAllPeersAux (s.length + 1) s

/-- One peer dictionary as built by `get_peers_from_config`. -/
structure ParsedPeer where
  pname : List Char
  pkey : List Char
  allowed : List Char
  pip : List Char
deriving DecidableEq

/-- Python `allowed_ips.strip().split('/')[0]`. -/
def upToSlash (l : List Char) : List Char :=
  l.takeWhile (fun c => decide (c ≠ '/'))

/-- Build the peer dictionary from the three regex groups, as the loop body
of `get_peers_from_config` does. -/
def mkParsed (g : List Char × List Char × List Char) : ParsedPeer :=
  ⟨pyStrip g.1, pyStrip g.2.1, pyStrip g.2.2, upToSlash (pyStrip g.2.2)⟩

/-- `WireGuardConfigManager.get_peers_from_config`, as a function of the
file content (a failed read returns the empty list in Python and is not
modelled here; the mutation claims operate on a readable file). -/
def getPeersFromConfig (cfg : List Char) : List ParsedPeer :=
  (findAllPeers cfg).map mkParsed

/-- Python `f.readlines()` (and iterating over a file object): split the
content after each newline, keeping the newline; a final piece without a
newline is kept as well. -/
def splitLinesKeep : List Char → List (List Char)
  | [] => []
  | c :: t =>
    if c = '\n' then ['\n'] :: splitLinesKeep t
    else
      match splitLinesKeep t with
      | [] => [[c]]
      | l :: ls => (c :: l) :: ls

/-- The line filter of `WireGuardConfigManager.remove_peer`: the comment
line naming the peer starts skip mode; the section marker, the public-key
line and the allowed-ips line are dropped while skipping (the last one ends
skip mode); any other line is kept only outside skip mode. -/
def removeLines (nm : List Char) : List (List Char) → Bool → List (List Char)
  | [], _ => []
  | l :: ls, skip =>
    if pyStrip l = ('#' :: ' ' :: nm) then removeLines nm ls true
    else if skip = true ∧ pyStrip l = ("[Peer]".data) then removeLines nm ls skip
    else if skip = true ∧ charsPref ("PublicKey".data) l = true then removeLines nm ls skip
    else if skip = true ∧ charsPref ("AllowedIPs".data) l = true then removeLines nm ls false
    else if skip = true then removeLines nm ls skip
    else l :: removeLines nm ls skip

/-- The block text appended by `add_peer` for a peer with the given
allowed-ips field. -/
structure PeerBlock where
  pname : List Char
  pkey : List Char
  pips : List Char
deriving DecidableEq

/-- Render one configuration block exactly as `add_peer` writes it. -/
def renderBlock (b : PeerBlock) : List Char :=
  '\n' :: '#' :: ' ' :: (b.pname ++ lit1 ++ b.pkey ++ lit2 ++ b.pips ++ ['\n'])

/-- Concatenation of rendered blocks. -/
def renderBlocks : List PeerBlock → List Char
  | [] => []
  | b :: bs => renderBlock b ++ renderBlocks bs

/-- The block `add_peer` appends for name, public key and bare address
(the allowed-ips field gets a `/32` suffix). -/
def peerBlock (nm pk ip : List Char) : List Char :=
  renderBlock ⟨nm, pk, ip ++ ("/32".data)⟩

/-- IP string for host index `n` in the fixed pool, as the Python
`f-string` over `10.10.0.` builds it. -/
def ipStr (n : Nat) : List Char :=
  ("10.10.0.".data) ++ (toString n).data

/-- The allocation loop shared by `add_peer` and
`_get_next_available_ip`: try `10.10.0.i` for `i` counting up, return the
first candidate not in `used`.  Called with `i = 2` and fuel `253` it scans
exactly the Python `range(2, 255)`, that is hosts `.2` through `.254`. -/
def findFreeAux (used : List (List Char)) : Nat → Nat → Option (List Char)
  | _, 0 => none
  | i, fuel + 1 =>
    if ipStr i ∈ used then findFreeAux used (i + 1) fuel else some (ipStr i)

/-- Addresses already assigned according to the parsed configuration, as
`add_peer` collects them. -/
def usedIps (cfg : List Char) : List (List Char) :=
  (getPeersFromConfig cfg).map ParsedPeer.pip

/-- File operations, recorded as a trace by the mutation embeddings. -/
inductive FsOp
  | readF (p : List Char)
  | appendF (p : List Char) (content : List Char)
  | writeF (p : List Char) (content : List Char)
  | renameF (src dst : List Char)
deriving DecidableEq

/-- The fixed configuration path of the manager. -/
def wgPath : List Char := ("/etc/wireguard/wg0.conf".data)

/-- Result of a configuration mutation: the returned boolean, the new file
content, and the trace of file operations performed. -/
structure MutResult where
  ok : Bool
  cfg : List Char
  ops : List FsOp
deriving DecidableEq

/-- `WireGuardConfigManager.add_peer`.  A `none` or empty `ipArg` is falsy
in Python, so the next free address is looked up by reading and parsing the
configuration; the block is then appended in place (open mode `a`).  When
no address is free the function prints and returns `False` without
writing. -/
def addPeer (cfg : List Char) (nm pk : List Char) (ipArg : Option (List Char)) : MutResult :=
  match (match ipArg with
         | some ip => if ip = [] then none else some ip
         | none => none) with
  | some ip =>
    { ok := true, cfg := cfg ++ peerBlock nm pk ip,
      ops := [FsOp.appendF wgPath (peerBlock nm pk ip)] }
  | none =>
    match findFreeAux (usedIps cfg) 2 253 with
    | none => { ok := false, cfg := cfg, ops := [FsOp.readF wgPath] }
    | some ip =>
      { ok := true, cfg := cfg ++ peerBlock nm pk ip,
        ops := [FsOp.readF wgPath, FsOp.appendF wgPath (peerBlock nm pk ip)] }

/-- `WireGuardConfigManager.remove_peer`: read all lines, drop the lines of
the named block, write the remaining lines back in place (open mode `w`),
return `True`. -/
def removePeer (cfg : List Char) (nm : List Char) : MutResult :=
  let newCfg := (removeLines nm (splitLinesKeep cfg) false).flatten
  { ok := true, cfg := newCfg, ops := [FsOp.readF wgPath, FsOp.writeF wgPath newCfg] }

/-- Modelled from the spec (section 4.2, for comparison with the code): a
mutation is atomic at the file level when the target file itself is never
written or appended to directly, only replaced by a rename. -/
def specAtomic (ops : List FsOp) (target : List Char) : Bool :=
  ops.all fun op =>
    match op with
    | FsOp.appendF p _ => decide (p ≠ target)
    | FsOp.writeF p _ => decide (p ≠ target)
    | _ => true

/-- Python `str.split(sep)` for a single-character separator. -/
def splitOnChar (sep : Char) : List Char → List (List Char)
  | [] => [[]]
  | c :: t =>
    if c = sep then [] :: splitOnChar sep t
    else
      match splitOnChar sep t with
      | [] => [[c]]
      | p :: ps => (c :: p) :: ps

/-- Python substring containment (the `in` operator on strings). -/
def hasSub (pat s : List Char) : Bool :=
  (splitOn1 pat s).isSome

/-- The per-line extraction of `_get_next_available_ip`:
`line.split('=')[1].strip().split('/')[0]`.  A line without `=` makes the
index raise, which the enclosing handler turns into a `None` result. -/
def extractIpFromLine (line : List Char) : Option (List Char) :=
  match (splitOnChar '=' line).get? 1 with
  | none => none
  | some piece => some (upToSlash (pyStrip piece))

/-- The collection loop of `_get_next_available_ip` over the file lines:
every line containing `AllowedIPs` contributes an address (Python stores
them in a set; only membership is ever used, so a list keeps enough).  A
raising line aborts the whole collection. -/
def serviceUsedIps : List (List Char) → Option (List (List Char))
  | [] => some []
  | l :: ls =>
    if hasSub ("AllowedIPs".data) l then
      match extractIpFromLine l with
      | none => none
      | some ip =>
        match serviceUsedIps ls with
        | none => none
        | some rest => some (ip :: rest)
    else serviceUsedIps ls

/-- `WireGuardMikroTikService._get_next_available_ip`.  The read result is
passed in: `none` stands for a raising read (the `except` branch returns
`None`); a missing file corresponds to `some []` (the existence check skips
the loop and the used set stays empty). -/
def getNextAvailableIpSvc (readRes : Option (List Char)) : Option (List Char) :=
  match readRes with
  | none => none
  | some cfg =>
    match serviceUsedIps (splitLinesKeep cfg) with
    | none => none
    | some used => findFreeAux used 2 253

/-- Digit-string parse standing in for Python `int`; the addresses this
code compares are plain digit strings, for which the two agree, and a
non-numeric string raises in Python which the caller turns into `False`. -/
def parseDigits : List Char → Option Nat
  | [] => none
  | l => l.foldl (fun acc? c =>
      match acc? with
      | none => none
      | some acc => if c.isDigit then some (acc * 10 + (c.toNat - 48)) else none)
      (some 0)

/-- `WireGuardMikroTikService._is_valid_vpn_ip`. -/
def isValidVpnIp (ip : List Char) : Bool :=
  let parts := splitOnChar '.' ip
  if parts.length ≠ 4 then false
  else
    match parts.get? 0, parts.get? 1, parts.get? 2, parts.get? 3 with
    | some a, some b, some c, some d =>
      if a = ("10".data) ∧ b = ("10".data) ∧ c = ("0".data) then
        match parseDigits d with
        | none => false
        | some n => decide (2 ≤ n ∧ n ≤ 254)
      else false
    | _, _, _, _ => false

/-- The address-resolution phase of
`WireGuardMikroTikService.add_router_to_wireguard` (lines 58 to 67): a
falsy explicit address triggers auto-assignment; a `None` auto-assignment
is reported as pool exhaustion; a resolved address is validated. -/
def addRouterIpPhase (ipArg : Option (List Char)) (readRes : Option (List Char)) :
    Except (List Char) (List Char) :=
  let ipRes := match ipArg with
    | none => getNextAvailableIpSvc readRes
    | some ip => if ip = [] then getNextAvailableIpSvc readRes else some ip
  match ipRes with
  | none => Except.error ("No available IP addresses in VPN range".data)
  | some ip =>
    if isValidVpnIp ip then Except.ok ip
    else Except.error (("Invalid VPN IP address: ".data) ++ ip)

/-- The status dictionary of `get_router_vpn_status`; fields that a branch
does not put into the dictionary are `none`. -/
structure VpnStatus where
  is_connected : Bool
  api_accessible : Option Bool
  status : List Char
  message : Option (List Char)
  vpn_ip : Option (List Char)
  has_last_check : Bool
deriving DecidableEq

/-- Network actions attempted by the probe, recorded as a trace. -/
inductive ProbeEvent
  | pingp (ip : List Char)
  | apiProbe (ip : List Char)
deriving DecidableEq

/-- `WireGuardMikroTikService.get_router_vpn_status`.  External effects are
parameters: `exc` is the message of an exception raised inside the guarded
body at or after the ping call (caught by the outer handler), `pingOk` is
the ping exit status, `apiOk` is whether the MikroTik API context manager
succeeds (its own failure is caught by the inner handler and folded into
`api_accessible = false`). -/
def getRouterVpnStatus (vpnIp : Option (List Char)) (exc : Option (List Char))
    (pingOk apiOk : Bool) : VpnStatus × List ProbeEvent :=
  match vpnIp with
  | none =>
    (⟨false, none, ("not_configured".data),
      some ("Router not configured for VPN".data), none, false⟩, [])
  | some ip =>
    match exc with
    | some m => (⟨false, none, ("error".data), some m, none, true⟩, [ProbeEvent.pingp ip])
    | none =>
      let apiAcc := if pingOk then apiOk else false
      (⟨pingOk, some apiAcc,
        (if pingOk then ("online".data) else ("offline".data)), none, some ip, true⟩,
       if pingOk then [ProbeEvent.pingp ip, ProbeEvent.apiProbe ip] else [ProbeEvent.pingp ip])

/-- One row of the `routers` table, with the columns `add_router` touches. -/
structure DbRow where
  dname : List Char
  dkey : List Char
  dip : List Char
  dvpn : List Char
  dactive : Bool
  dapi : Bool
  dnotes : List Char
deriving DecidableEq

/-- `DatabaseManager.add_router`: an unavailable connection returns
`False`; otherwise the insert runs with
`ON CONFLICT (name) DO UPDATE SET public_key, ip_address, is_active`
(plus a timestamp), so a duplicate name updates those three columns in
place and the call still returns `True`. -/
def dbAddRouter (avail : Bool) (rows : List DbRow) (data : DbRow) : Bool × List DbRow :=
  if avail = false then (false, rows)
  else if rows.any (fun r => decide (r.dname = data.dname)) then
    (true, rows.map (fun r =>
      if r.dname = data.dname then
        { r with dkey := data.dkey, dip := data.dip, dactive := data.dactive }
      else r))
  else (true, rows ++ [data])

/-- SQL side effects of `update_router`, recorded as a trace. -/
inductive DbOp
  | executeQ (q : List Char)
  | commitOp
deriving DecidableEq

/-- One `SET` clause as `update_router` renders it. -/
def setClause (kv : List Char × List Char) : List Char :=
  kv.1 ++ (" = %(".data) ++ kv.1 ++ (")s".data)

/-- Comma-joined clause list. -/
def joinComma (ls : List (List Char)) : List Char :=
  (List.intersperse (", ".data) ls).flatten

/-- The SQL text `update_router` builds for a non-empty update mapping. -/
def updateQuery (ups : List (List Char × List Char)) : List Char :=
  ("UPDATE routers SET ".data) ++ joinComma (ups.map setClause) ++
    (", updated_at = NOW() WHERE id = %(id)s".data)

/-- `DatabaseManager.update_router`.  The row id only feeds the query
parameters.  With an empty update mapping the `if set_clauses` guard is
false and the function falls off the end, returning Python `None`
(modelled as `none`) with no execute and no commit; `execFails` tells
whether the execute raises, in which case the handler returns `False`. -/
def dbUpdateRouter (avail : Bool) (routerId : Nat) (ups : List (List Char × List Char))
    (execFails : Bool) : Option Bool × List DbOp :=
  if avail = false then (some false, [])
  else if ups.isEmpty then (none, [])
  else if execFails then (some false, [DbOp.executeQ (updateQuery ups)])
  else (some true, [DbOp.executeQ (updateQuery ups), DbOp.commitOp])

/-- Python truthiness of a `True | False | None` result. -/
def pyTruthy : Option Bool → Bool
  | none => false
  | some b => b

/-- The record sources merged by `WireGuardMenu.list_routers`, in its
priority order. -/
inductive RSource
  | primaryDb
  | djangoDb
  | supabase
  | wgConfig
deriving DecidableEq

/-- A router record as the database, Django and Supabase sources yield it. -/
structure SrcRec where
  rname : List Char
  rkey : List Char
  rip : List Char
  ractive : Bool
deriving DecidableEq

/-- A merged entry of the router list, with its source attribution. -/
structure MergedRec where
  mname : List Char
  mkey : List Char
  mip : List Char
  mactive : Bool
  msource : RSource
deriving DecidableEq

/-- Conversion of a source record into a merged entry. -/
def srcToMerged (src : RSource) (r : SrcRec) : MergedRec :=
  ⟨r.rname, r.rkey, r.rip, r.ractive, src⟩

/-- The dedup-append loop used for the Django and Supabase sources: a
record is appended only when no entry so far carries its public key. -/
def dedupFold (src : RSource) (acc : List MergedRec) (rs : List SrcRec) : List MergedRec :=
  rs.foldl (fun a r =>
    if a.any (fun m => decide (m.mkey = r.rkey)) then a
    else a ++ [srcToMerged src r]) acc

/-- The dedup-append loop for the parsed WireGuard configuration (its
entries are always reported Active). -/
def wgFold (acc : List MergedRec) (ps : List ParsedPeer) : List MergedRec :=
  ps.foldl (fun a p =>
    if a.any (fun m => decide (m.mkey = p.pkey)) then a
    else a ++ [⟨p.pname, p.pkey, p.pip, true, RSource.wgConfig⟩]) acc

/-- The merge of `WireGuardMenu.list_routers`: primary database records are
appended unconditionally, then the Django, Supabase and configuration
sources contribute records whose public key has not been seen.  An
unavailable source (`none`) contributes nothing. -/
def mergeRouters (db dj sb : Option (List SrcRec)) (wg : List ParsedPeer) : List MergedRec :=
  let l1 := match db with
    | none => []
    | some rs => rs.map (srcToMerged RSource.primaryDb)
  let l2 := match dj with
    | none => l1
    | some rs => dedupFold RSource.djangoDb l1 rs
  let l3 := match sb with
    | none => l2
    | some rs => dedupFold RSource.supabase l2 rs
  wgFold l3 wg

/-- Sample configuration holding the single peer `r1`. -/
def cfgR1 : List Char := peerBlock ("r1".data) ("k1".data) ("10.10.0.2".data)

/-- Configuration after one auto-assigned peer. -/
def chainCfg1 : List Char := (addPeer [] ("r1".data) ("k1".data) none).cfg

/-- Configuration after two auto-assigned peers. -/
def chainCfg2 : List Char := (addPeer chainCfg1 ("r2".data) ("k2".data) none).cfg

/-- Configuration after three auto-assigned peers. -/
def chainCfg3 : List Char := (addPeer chainCfg2 ("r3".data) ("k3".data) none).cfg

/-- Row stored under the name `r1`. -/
def rowR1 : DbRow :=
  ⟨("r1".data), ("k1".data), ("10.10.0.2".data), ("wireguard".data), true, false, ("n".data)⟩

/-- Upsert payload reusing the name `r1` with divergent fields. -/
def rowR1v2 : DbRow :=
  ⟨("r1".data), ("k2".data), ("10.10.0.9".data), ("wireguard".data), true, false, ("n2".data)⟩

/-- Field well-formedness for a rendered configuration block: nonempty
fields with no embedded newline, invariant under stripping. -/
def blockOk (b : PeerBlock) : Prop :=
  b.pname ≠ [] ∧ '\n' ∉ b.pname ∧ pyStrip b.pname = b.pname ∧
  b.pkey ≠ [] ∧ '\n' ∉ b.pkey ∧ pyStrip b.pkey = b.pkey ∧
  b.pips ≠ [] ∧ '\n' ∉ b.pips ∧ pyStrip b.pips = b.pips

instance blockOkDecidable (b : PeerBlock) : Decidable (blockOk b) := by
  unfold blockOk
  infer_instance

/-- The peer dictionary that parsing a rendered block yields. -/
def blockParsed (b : PeerBlock) : ParsedPeer :=
  ⟨b.pname, b.pkey, b.pips, upToSlash b.pips⟩

/-- A line in the middle of a readlines result: ends with its newline and
has no interior newline. -/
def lineMid (l : List Char) : Prop := ∃ b2, l = b2 ++ ['\n'] ∧ '\n' ∉ b2

/-- A final line of a readlines result: nonempty, interior newline only
allowed as the terminating character. -/
def lineLast (l : List Char) : Prop := l ≠ [] ∧ '\n' ∉ l.dropLast

/-- Shape invariant of a readlines result. -/
def linesOK : List (List Char) → Prop
  | [] => True
  | [l] => lineLast l
  | l :: l2 :: ls => lineMid l ∧ linesOK (l2 :: ls)

/-- Scenario record A of the merge determinism scenario. -/
def recA : SrcRec := ⟨("A".data), ("kA".data), ("10.10.0.2".data), true⟩

/-- Scenario record B as the primary store holds it. -/
def recB : SrcRec := ⟨("B".data), ("kB".data), ("10.10.0.3".data), true⟩

/-- Stale copy of B (same public key, divergent fields) in the secondary
store. -/
def recBstale : SrcRec := ⟨("B".data), ("kB".data), ("10.10.0.30".data), false⟩

/-- Scenario record C as the secondary store holds it. -/
def recC : SrcRec := ⟨("C".data), ("kC".data), ("10.10.0.4".data), true⟩

/-- Stale copy of C (same public key) as parsed from the tunnel config. -/
def peerCstale : ParsedPeer :=
  ⟨("C".data), ("kC".data), ("10.10.0.40/32".data), ("10.10.0.40".data)⟩

/-- Scenario record D, present only in the tunnel config. -/
def peerD : ParsedPeer :=
  ⟨("D".data), ("kD".data), ("10.10.0.5/32".data), ("10.10.0.5".data)⟩

/-- The readlines view of one rendered block. -/
def blockLines (b : PeerBlock) : List (List Char) :=
  [['\n'],
   ('#' :: ' ' :: b.pname) ++ ['\n'],
   ("[Peer]".data) ++ ['\n'],
   ("PublicKey = ".data) ++ b.pkey ++ ['\n'],
   ("AllowedIPs = ".data) ++ b.pips ++ ['\n']]

theorem findFreeAux_none_iff (used : List (List Char)) :
    ∀ fuel i, (findFreeAux used i fuel = none ↔ ∀ n, i ≤ n → n < i + fuel → ipStr n ∈ used) := by
  intro fuel
  induction fuel with
  | zero =>
    intro i
    simp only [findFreeAux]
    constructor
    · intro _ n h1 h2
      omega
    · intro _
      trivial
  | succ f ih =>
    intro i
    simp only [findFreeAux]
    by_cases h : ipStr i ∈ used
    · rw [if_pos h, ih (i + 1)]
      constructor
      · intro hall n h1 h2
        rcases Nat.eq_or_lt_of_le h1 with h1 | h1
        · exact h1 ▸ h
        · exact hall n h1 (by omega)
      · intro hall n h1 h2
        exact hall n (by omega) (by omega)
    · rw [if_neg h]
      constructor
      · intro hc
        exact absurd hc (by simp)
      · intro hall
        exact absurd (hall i (Nat.le_refl i) (by omega)) h

theorem findFreeAux_some (used : List (List Char)) :
    ∀ fuel i ip, findFreeAux used i fuel = some ip →
      ∃ n, i ≤ n ∧ n < i + fuel ∧ ip = ipStr n ∧ ipStr n ∉ used ∧
        ∀ m, i ≤ m → m < n → ipStr m ∈ used := by
  intro fuel
  induction fuel with
  | zero =>
    intro i ip h
    simp [findFreeAux] at h
  | succ f ih =>
    intro i ip h
    simp only [findFreeAux] at h
    by_cases hm : ipStr i ∈ used
    · rw [if_pos hm] at h
      obtain ⟨n, hn1, hn2, hn3, hn4, hn5⟩ := ih (i + 1) ip h
      refine ⟨n, by omega, by omega, hn3, hn4, ?_⟩
      intro m h1 h2
      rcases Nat.eq_or_lt_of_le h1 with h1 | h1
      · exact h1 ▸ hm
      · exact hn5 m h1 h2
    · rw [if_neg hm] at h
      refine ⟨i, Nat.le_refl i, by omega, (Option.some.inj h).symm, hm, ?_⟩
      intro m h1 h2
      omega

/-- C1.  Address allocation scans hosts `10.10.0.2` through `10.10.0.254`
of the pool in ascending numeric order (skipping the network address `.0`,
the gateway `.1` and the broadcast `.255` by construction of the scan
range) and returns the first address not in `used`; it returns `none`
exactly when every allocatable address is used.  With no peers it returns
`10.10.0.2`, and after three auto-assigned peers the fourth allocation
returns `10.10.0.5`. -/
theorem claim_C1 :
    (∀ used, findFreeAux used 2 253 = none ↔ ∀ n, 2 ≤ n → n < 255 → ipStr n ∈ used) ∧
    (∀ used ip, findFreeAux used 2 253 = some ip →
      ∃ n, 2 ≤ n ∧ n < 255 ∧ ip = ipStr n ∧ ip ∉ used ∧
        ∀ m, 2 ≤ m → m < n → ipStr m ∈ used) ∧
    findFreeAux [] 2 253 = some ("10.10.0.2".data) ∧
    findFreeAux (usedIps chainCfg3) 2 253 = some ("10.10.0.5".data) := by
  refine ⟨?_, ?_, by decide, by decide⟩
  · intro used
    have h := findFreeAux_none_iff used 253 2
    simpa using h
  · intro used ip h
    obtain ⟨n, h1, h2, h3, h4, h5⟩ := findFreeAux_some used 253 2 ip h
    exact ⟨n, h1, by omega, h3, h3 ▸ h4, h5⟩

theorem claim_C1_witness :
    ∃ n, 2 ≤ n ∧ n < 255 ∧ ("10.10.0.3".data) = ipStr n ∧
      ("10.10.0.3".data) ∉ [("10.10.0.2".data)] ∧
      ∀ m, 2 ≤ m → m < n → ipStr m ∈ [("10.10.0.2".data)] :=
  claim_C1.2.1 [("10.10.0.2".data)] ("10.10.0.3".data) (by decide)

/-- C9.  With an available connection, `update_router` on an empty updates
mapping executes no SQL and no commit and returns Python `None` — a value
that is neither the declared `True` nor `False` but is falsy like a failed
update — whereas a non-empty mapping that executes successfully returns
`True`. -/
theorem claim_C9 :
    (∀ rid ef, dbUpdateRouter true rid [] ef = (none, [])) ∧
    (∀ rid ups, ups ≠ [] → dbUpdateRouter true rid ups false =
      (some true, [DbOp.executeQ (updateQuery ups), DbOp.commitOp])) ∧
    (∀ rid ef, (dbUpdateRouter true rid [] ef).1 ≠ some true ∧
      (dbUpdateRouter true rid [] ef).1 ≠ some false) ∧
    pyTruthy none = pyTruthy (some false) := by
  refine ⟨?_, ?_, ?_, rfl⟩
  · intro rid ef
    simp [dbUpdateRouter]
  · intro rid ups h
    cases ups with
    | nil => exact absurd rfl h
    | cons a l => simp [dbUpdateRouter]
  · intro rid ef
    simp [dbUpdateRouter]

theorem claim_C9_witness :
    dbUpdateRouter true 7 [(("is_active".data), ("true".data))] false =
      (some true, [DbOp.executeQ (updateQuery [(("is_active".data), ("true".data))]),
        DbOp.commitOp]) :=
  claim_C9.2.1 7 [(("is_active".data), ("true".data))] (by decide)

/-- C8 counterexample.  Upserting a peer whose name duplicates a stored
record but whose other fields diverge does not return a Conflict: the call
succeeds and silently overwrites the stored public key. -/
theorem claim_C8_counterexample :
    (dbAddRouter true [rowR1] rowR1v2).1 = true ∧
    (dbAddRouter true [rowR1] rowR1v2).2.map DbRow.dkey = [("k2".data)] ∧
    rowR1.dkey ≠ rowR1v2.dkey := by
  decide

theorem dbAddRouter_any_iff (rows : List DbRow) (data : DbRow) :
    (rows.any fun r => decide (r.dname = data.dname)) = true ↔
      data.dname ∈ rows.map DbRow.dname := by
  simp only [List.any_eq_true, decide_eq_true_eq, List.mem_map]

/-- C8 amended.  `add_router` is an upsert keyed on `name`: an unavailable
store returns `False`; otherwise the call returns `True`, inserting a fresh
name and, for a duplicate name, overwriting the stored `public_key`,
`ip_address` and `is_active` in place (names, and the columns the update
does not set, are preserved) — no Conflict result exists. -/
theorem claim_C8 : ∀ rows data,
    dbAddRouter false rows data = (false, rows) ∧
    (dbAddRouter true rows data).1 = true ∧
    (data.dname ∉ rows.map DbRow.dname → (dbAddRouter true rows data).2 = rows ++ [data]) ∧
    (data.dname ∈ rows.map DbRow.dname →
      (dbAddRouter true rows data).2.map DbRow.dname = rows.map DbRow.dname ∧
      (dbAddRouter true rows data).2.map DbRow.dnotes = rows.map DbRow.dnotes ∧
      ∀ r ∈ (dbAddRouter true rows data).2, r.dname = data.dname →
        r.dkey = data.dkey ∧ r.dip = data.dip ∧ r.dactive = data.dactive) := by
  intro rows data
  refine ⟨by simp [dbAddRouter], ?_, ?_, ?_⟩
  · by_cases h : data.dname ∈ rows.map DbRow.dname
    · simp [dbAddRouter, (dbAddRouter_any_iff rows data).2 h]
    · have : (rows.any fun r => decide (r.dname = data.dname)) = false := by
        rcases hh : rows.any fun r => decide (r.dname = data.dname) with _ | _
        · rfl
        · exact absurd ((dbAddRouter_any_iff rows data).1 hh) h
      simp [dbAddRouter, this]
  · intro h
    have : (rows.any fun r => decide (r.dname = data.dname)) = false := by
      rcases hh : rows.any fun r => decide (r.dname = data.dname) with _ | _
      · rfl
      · exact absurd ((dbAddRouter_any_iff rows data).1 hh) h
    simp [dbAddRouter, this]
  · intro h
    have ha := (dbAddRouter_any_iff rows data).2 h
    have hx : (dbAddRouter true rows data).2 = rows.map (fun r =>
        if r.dname = data.dname then
          { r with dkey := data.dkey, dip := data.dip, dactive := data.dactive }
        else r) := by
      simp [dbAddRouter, ha]
    refine ⟨?_, ?_, ?_⟩
    · rw [hx, List.map_map]
      apply List.map_congr_left
      intro r _
      by_cases hr : r.dname = data.dname <;> simp [hr]
    · rw [hx, List.map_map]
      apply List.map_congr_left
      intro r _
      by_cases hr : r.dname = data.dname <;> simp [hr]
    · intro r hr hname
      rw [hx, List.mem_map] at hr
      obtain ⟨r0, _, hr0⟩ := hr
      by_cases h0 : r0.dname = data.dname
      · rw [if_pos h0] at hr0
        subst hr0
        exact ⟨rfl, rfl, rfl⟩
      · rw [if_neg h0] at hr0
        subst hr0
        exact absurd hname h0

theorem claim_C8_witness :
    dbAddRouter false [rowR1] rowR1v2 = (false, [rowR1]) ∧
    (dbAddRouter true ([] : List DbRow) rowR1v2).2 = [] ++ [rowR1v2] :=
  ⟨(claim_C8 [rowR1] rowR1v2).1, (claim_C8 [] rowR1v2).2.2.1 (by decide)⟩

/-- C7 counterexample.  The not-configured failure branch of
`get_router_vpn_status` builds a dictionary that carries no
`api_accessible` entry at all, so this failure mode does not resolve to a
result with `apiAccessible = false` as the claim states. -/
theorem claim_C7_counterexample :
    (getRouterVpnStatus none none true true).1.is_connected = false ∧
    (getRouterVpnStatus none none true true).1.api_accessible ≠ some false ∧
    (getRouterVpnStatus none none true true).1.api_accessible ≠ some true := by
  decide

/-- C7 amended.  The API probe is attempted only when the ping succeeded
(and no exception was raised); the function is total so transport failure
never escapes as an exception; every failure mode yields
`is_connected = false` with `api_accessible` equal to `some false` (ping
failure) or absent (not configured, exception) — never `some true` — and a
reason is recorded, in `message` for the not-configured and exception
branches and as the status string `offline` for a failed ping. -/
theorem claim_C7 : ∀ vpnIp exc pingOk apiOk,
    (∀ ip2, ProbeEvent.apiProbe ip2 ∈ (getRouterVpnStatus vpnIp exc pingOk apiOk).2 →
      pingOk = true ∧ exc = none ∧ vpnIp ≠ none) ∧
    ((getRouterVpnStatus vpnIp exc pingOk apiOk).1.is_connected = false →
      ((getRouterVpnStatus vpnIp exc pingOk apiOk).1.api_accessible = none ∨
        (getRouterVpnStatus vpnIp exc pingOk apiOk).1.api_accessible = some false) ∧
      ((getRouterVpnStatus vpnIp exc pingOk apiOk).1.message ≠ none ∨
        (getRouterVpnStatus vpnIp exc pingOk apiOk).1.status = ("offline".data))) ∧
    ((getRouterVpnStatus vpnIp exc pingOk apiOk).1.is_connected = true →
      pingOk = true ∧ exc = none ∧ vpnIp ≠ none) := by
  intro vpnIp exc pingOk apiOk
  cases vpnIp with
  | none => simp [getRouterVpnStatus]
  | some ip =>
    cases exc with
    | some m => simp [getRouterVpnStatus]
    | none =>
      cases pingOk with
      | false => simp [getRouterVpnStatus]
      | true => simp [getRouterVpnStatus]

theorem claim_C7_witness :
    true = true ∧ (none : Option (List Char)) = none ∧
      (some ("10.10.0.2".data) : Option (List Char)) ≠ none :=
  (claim_C7 (some ("10.10.0.2".data)) none true true).1 ("10.10.0.2".data) (by decide)

/-- C10.  A raising read of the configuration file makes
`_get_next_available_ip` return `None`, the same value it yields on pool
exhaustion, so `add_router_to_wireguard` reports an unreadable file with
the exhaustion message `No available IP addresses in VPN range` instead of
a read error, and returns instead of raising. -/
theorem claim_C10 :
    getNextAvailableIpSvc none = none ∧
    addRouterIpPhase none none =
      Except.error ("No available IP addresses in VPN range".data) ∧
    (∀ rd, getNextAvailableIpSvc rd = none →
      addRouterIpPhase none rd =
        Except.error ("No available IP addresses in VPN range".data)) ∧
    findFreeAux ((List.range' 2 253).map ipStr) 2 253 = none := by
  refine ⟨rfl, rfl, ?_, ?_⟩
  · intro rd h
    simp [addRouterIpPhase, h]
  · rw [findFreeAux_none_iff]
    intro n h1 h2
    exact List.mem_map.2 ⟨n, by rw [List.mem_range'_1]; omega, rfl⟩

theorem claim_C10_witness :
    addRouterIpPhase none none =
      Except.error ("No available IP addresses in VPN range".data) :=
  claim_C10.2.2.1 none rfl

/-- C3 counterexample.  Neither `add_peer` nor `remove_peer` writes through
a temporary path followed by a rename: `add_peer` appends to the
configuration file in place and `remove_peer` rewrites it in place, so the
spec-level atomicity predicate fails on both traces. -/
theorem claim_C3_counterexample :
    specAtomic ((addPeer [] ("r1".data) ("k1".data) (some ("10.10.0.2".data))).ops) wgPath
      = false ∧
    specAtomic ((removePeer cfgR1 ("r1".data)).ops) wgPath = false := by
  decide

/-- C3 amended.  Configuration mutations are not atomic: adding a peer with
an explicit address performs exactly one in-place append to the
configuration file, and removing a peer reads the file and performs one
in-place whole-file write; neither trace contains a temporary-path write
plus rename, so a concurrent reader can observe a partially written
file. -/
theorem claim_C3 :
    (∀ cfg nm pk ip, ip ≠ [] →
      (addPeer cfg nm pk (some ip)).ops = [FsOp.appendF wgPath (peerBlock nm pk ip)] ∧
      specAtomic (addPeer cfg nm pk (some ip)).ops wgPath = false) ∧
    (∀ cfg nm,
      (removePeer cfg nm).ops =
        [FsOp.readF wgPath, FsOp.writeF wgPath (removePeer cfg nm).cfg] ∧
      specAtomic (removePeer cfg nm).ops wgPath = false) := by
  constructor
  · intro cfg nm pk ip h
    constructor
    · simp [addPeer, h]
    · simp [addPeer, h, specAtomic]
  · intro cfg nm
    constructor
    · rfl
    · simp [specAtomic, removePeer]

theorem claim_C3_witness :
    (addPeer [] ("r2".data) ("k2".data) (some ("10.10.0.3".data))).ops =
      [FsOp.appendF wgPath (peerBlock ("r2".data) ("k2".data) ("10.10.0.3".data))] ∧
    specAtomic (addPeer [] ("r2".data) ("k2".data) (some ("10.10.0.3".data))).ops wgPath
      = false :=
  claim_C3.1 [] ("r2".data) ("k2".data) ("10.10.0.3".data) (by decide)

/-- C4 counterexample.  Adding a peer whose name is already present does
not fail with a duplicate-name error: on a configuration already holding
the peer `r1`, `add_peer` for `r1` reports success and appends a second
block. -/
theorem claim_C4_counterexample :
    (getPeersFromConfig cfgR1).map ParsedPeer.pname = [("r1".data)] ∧
    (addPeer cfgR1 ("r1".data) ("k9".data) (some ("10.10.0.9".data))).ok = true ∧
    (addPeer cfgR1 ("r1".data) ("k9".data) (some ("10.10.0.9".data))).cfg =
      cfgR1 ++ peerBlock ("r1".data) ("k9".data) ("10.10.0.9".data) := by
  decide

/-- C4 amended.  `add_peer` performs no duplicate-name check: with an
explicit address it always reports success and appends exactly one
well-formed block, whether or not the name is already present; with
auto-assignment it appends one block for the first free address, and fails
(without writing) exactly when the pool scan is exhausted. -/
theorem claim_C4 :
    (∀ cfg nm pk ip, ip ≠ [] →
      (addPeer cfg nm pk (some ip)).ok = true ∧
      (addPeer cfg nm pk (some ip)).cfg = cfg ++ peerBlock nm pk ip) ∧
    (∀ cfg nm pk ip, findFreeAux (usedIps cfg) 2 253 = some ip →
      (addPeer cfg nm pk none).ok = true ∧
      (addPeer cfg nm pk none).cfg = cfg ++ peerBlock nm pk ip) ∧
    (∀ cfg nm pk, findFreeAux (usedIps cfg) 2 253 = none →
      (addPeer cfg nm pk none).ok = false ∧
      (addPeer cfg nm pk none).cfg = cfg) := by
  refine ⟨?_, ?_, ?_⟩
  · intro cfg nm pk ip h
    constructor <;> simp [addPeer, h]
  · intro cfg nm pk ip h
    constructor <;> simp [addPeer, h]
  · intro cfg nm pk h
    constructor <;> simp [addPeer, h]

theorem claim_C4_witness :
    (addPeer cfgR1 ("r1".data) ("k3".data) (some ("10.10.0.4".data))).ok = true ∧
    (addPeer cfgR1 ("r1".data) ("k3".data) (some ("10.10.0.4".data))).cfg =
      cfgR1 ++ peerBlock ("r1".data) ("k3".data) ("10.10.0.4".data) :=
  claim_C4.1 cfgR1 ("r1".data) ("k3".data) ("10.10.0.4".data) (by decide)

theorem charsPref_append (p r : List Char) : charsPref p (p ++ r) = true := by
  induction p with
  | nil => rfl
  | cons a p ih => simp [charsPref, ih]

theorem splitOn1_pref (pat s : List Char) (h : charsPref pat s = true) :
    splitOn1 pat s = some ([], s) := by
  cases s <;> simp [splitOn1, h]

theorem splitOn1_append_left (hc : Char) (pt a b : List Char) (ha : hc ∉ a) :
    splitOn1 (hc :: pt) (a ++ b) =
      (splitOn1 (hc :: pt) b).map (fun q => (a ++ q.1, q.2)) := by
  induction a with
  | nil =>
    cases h : splitOn1 (hc :: pt) b <;> simp [h]
  | cons c a ih =>
    have hcc : charsPref (hc :: pt) (c :: (a ++ b)) = false := by
      have hne : ¬ hc = c := fun he => ha (he ▸ List.mem_cons_self c a)
      simp [charsPref, hne]
    rw [List.cons_append]
    simp only [splitOn1, hcc, Bool.false_eq_true, if_false]
    rw [ih (fun hm => ha (List.mem_cons_of_mem c hm))]
    cases splitOn1 (hc :: pt) b <;> simp

theorem splitOn1_none (hc : Char) (pt s : List Char) (h : hc ∉ s) :
    splitOn1 (hc :: pt) s = none := by
  induction s with
  | nil => rfl
  | cons c t ih =>
    have hcc : charsPref (hc :: pt) (c :: t) = false := by
      have hne : ¬ hc = c := fun he => h (he ▸ List.mem_cons_self c t)
      simp [charsPref, hne]
    simp only [splitOn1, hcc, Bool.false_eq_true, if_false]
    simp [ih (fun hm => h (List.mem_cons_of_mem c hm))]

theorem splitTerm_append (a b : List Char) (ha : '\n' ∉ a) :
    splitTerm (a ++ b) = (a ++ (splitTerm b).1, (splitTerm b).2) := by
  induction a with
  | nil => simp
  | cons c a ih =>
    have hcnd : ¬(c = '\n' ∧ ((a ++ b).head? = some '\n' ∨ (a ++ b).head? = some '#')) := by
      rintro ⟨h1, _⟩
      exact ha (h1 ▸ List.mem_cons_self c a)
    rw [List.cons_append]
    simp only [splitTerm, if_neg hcnd]
    rw [ih (fun hm => ha (List.mem_cons_of_mem c hm))]
    simp

theorem dropTrail_concat_ws (x : List Char) (c : Char) (hc : wsp c = true) :
    dropTrail (x ++ [c]) = dropTrail x := by
  simp [dropTrail, List.reverse_append, List.dropWhile_cons, hc]

theorem pyStrip_concat_ws (x : List Char) (c : Char) (hc : wsp c = true) :
    pyStrip (x ++ [c]) = pyStrip x := by
  unfold pyStrip
  rw [List.dropWhile_append]
  split
  · rename_i h
    have h2 : List.dropWhile wsp [c] = [] := by simp [List.dropWhile_cons, hc]
    have h3 : List.dropWhile wsp x = [] := by
      cases hh : List.dropWhile wsp x with
      | nil => rfl
      | cons y ys => rw [hh] at h; simp at h
    rw [h2, h3]
  · exact dropTrail_concat_ws _ c hc

theorem pyStrip_concat_nl (x : List Char) : pyStrip (x ++ ['\n']) = pyStrip x :=
  pyStrip_concat_ws x '\n' (by decide)

theorem dropTrail_length_le (l : List Char) : (dropTrail l).length ≤ l.length := by
  unfold dropTrail
  rw [List.length_reverse]
  calc (List.dropWhile wsp l.reverse).length ≤ l.reverse.length :=
        (List.dropWhile_sublist wsp).length_le
    _ = l.length := List.length_reverse l

theorem pyStrip_length_le (l : List Char) : (pyStrip l).length ≤ l.length := by
  unfold pyStrip
  calc (dropTrail (l.dropWhile wsp)).length ≤ (l.dropWhile wsp).length :=
        dropTrail_length_le _
    _ ≤ l.length := (List.dropWhile_sublist wsp).length_le

theorem pyStrip_fix_last (l : List Char) (h : pyStrip l = l) :
    ∀ c, l.getLast? = some c → wsp c = false := by
  intro c hc
  cases hw : wsp c with
  | false => rfl
  | true =>
    obtain ⟨y, rfl⟩ := List.getLast?_eq_some_iff.1 hc
    have h1 : pyStrip (y ++ [c]) = pyStrip y := pyStrip_concat_ws y c hw
    have h2 : (pyStrip (y ++ [c])).length ≤ y.length := h1 ▸ pyStrip_length_le y
    rw [h] at h2
    simp at h2

theorem pyStrip_fix_head (l : List Char) (h : pyStrip l = l) :
    ∀ c, l.head? = some c → wsp c = false := by
  intro c hc
  cases hw : wsp c with
  | false => rfl
  | true =>
    cases l with
    | nil => simp at hc
    | cons d t =>
      have hd : d = c := by simpa using hc
      subst hd
      have h1 : pyStrip (d :: t) = dropTrail (t.dropWhile wsp) := by
        unfold pyStrip
        rw [List.dropWhile_cons, if_pos (by simp [hw])]
      have h2 : (pyStrip (d :: t)).length ≤ t.length := by
        rw [h1]
        calc (dropTrail (t.dropWhile wsp)).length ≤ (t.dropWhile wsp).length :=
              dropTrail_length_le _
          _ ≤ t.length := (List.dropWhile_sublist wsp).length_le
      rw [h] at h2
      simp at h2

theorem pyStrip_eq_self (l : List Char)
    (h1 : ∀ c, l.head? = some c → wsp c = false)
    (h2 : ∀ c, l.getLast? = some c → wsp c = false) : pyStrip l = l := by
  have hd : l.dropWhile wsp = l := by
    cases l with
    | nil => rfl
    | cons c t => rw [List.dropWhile_cons, if_neg (by simp [h1 c rfl])]
  unfold pyStrip
  rw [hd]
  unfold dropTrail
  cases hr : l.reverse with
  | nil =>
    have : l = [] := List.reverse_eq_nil_iff.1 hr
    simp [this]
  | cons c r =>
    have hlast : l.getLast? = some c := by
      rw [List.getLast?_eq_head?_reverse, hr]
      rfl
    rw [List.dropWhile_cons, if_neg (by simp [h2 c hlast])]
    rw [← hr, List.reverse_reverse]

theorem pyStrip_cons_of_not_ws (c : Char) (r : List Char) (hc : wsp c = false) :
    ∃ r2, pyStrip (c :: r) = c :: r2 := by
  unfold pyStrip
  rw [List.dropWhile_cons, if_neg (by simp [hc])]
  unfold dropTrail
  rw [show (c :: r).reverse = r.reverse ++ [c] by simp]
  rw [List.dropWhile_append]
  split
  · refine ⟨[], ?_⟩
    simp [List.dropWhile_cons, hc]
  · exact ⟨(List.dropWhile wsp r.reverse).reverse, by simp⟩

theorem mem_of_mem_pyStrip (c : Char) (l : List Char) (h : c ∈ pyStrip l) : c ∈ l := by
  unfold pyStrip dropTrail at h
  have h1 := List.mem_reverse.1 h
  have h2 := (List.dropWhile_sublist wsp).subset h1
  have h3 := List.mem_reverse.1 h2
  exact (List.dropWhile_sublist wsp).subset h3

theorem splitOn1_hash (a W : List Char) (ha : '#' ∉ a) :
    splitOn1 ("# ".data) (a ++ '#' :: ' ' :: W) = some (a, '#' :: ' ' :: W) := by
  have h : ("# ".data) = '#' :: [' '] := rfl
  rw [h, show a ++ '#' :: ' ' :: W = a ++ (('#' :: [' ']) ++ W) by simp]
  rw [splitOn1_append_left '#' [' '] a _ ha]
  rw [splitOn1_pref _ _ (charsPref_append ('#' :: [' ']) W)]
  simp

theorem splitOn1_lit_after (pat : List Char) (hc : Char) (pt g rest : List Char)
    (hpat : pat = hc :: pt) (hg : hc ∉ g) :
    splitOn1 pat (g ++ (pat ++ rest)) = some (g, pat ++ rest) := by
  subst hpat
  rw [splitOn1_append_left hc pt g _ hg]
  rw [splitOn1_pref _ _ (charsPref_append _ _)]
  simp

theorem firstMatch_core (a n k i r : List Char)
    (ha : '#' ∉ a) (hn0 : n ≠ []) (hn : '\n' ∉ n)
    (hk0 : k ≠ []) (hk : '\n' ∉ k) (hi0 : i ≠ []) (hi : '\n' ∉ i) :
    firstMatch (a ++ '#' :: ' ' :: (n ++ (lit1 ++ (k ++ (lit2 ++ (i ++ '\n' :: r)))))) =
      some ((n, k, i ++ (splitTerm ('\n' :: r)).1), (splitTerm ('\n' :: r)).2) := by
  cases n with
  | nil => exact absurd rfl hn0
  | cons nc n' =>
    cases k with
    | nil => exact absurd rfl hk0
    | cons kc k' =>
      cases i with
      | nil => exact absurd rfl hi0
      | cons ic i' =>
        have hn' : '\n' ∉ n' := fun hm => hn (List.mem_cons_of_mem nc hm)
        have hk' : '\n' ∉ k' := fun hm => hk (List.mem_cons_of_mem kc hm)
        have hi' : '\n' ∉ i' := fun hm => hi (List.mem_cons_of_mem ic hm)
        simp only [List.cons_append]
        simp only [firstMatch, splitOn1_hash a _ ha, List.drop_succ_cons, List.drop_zero,
          splitOn1_lit_after lit1 '\n' ("[Peer]\nPublicKey = ".data) n' _ rfl hn',
          List.drop_left,
          splitOn1_lit_after lit2 '\n' ("AllowedIPs = ".data) k' _ rfl hk',
          splitTerm_append i' _ hi']

theorem firstMatch_no_hash (s : List Char) (h : '#' ∉ s) : firstMatch s = none := by
  have h1 : splitOn1 ("# ".data) s = none := by
    have hp : ("# ".data) = '#' :: [' '] := rfl
    rw [hp]
    exact splitOn1_none '#' [' '] s h
  simp only [firstMatch, h1]

theorem findAllPeersAux_nil : ∀ f, findAllPeersAux f [] = []
  | 0 => rfl
  | _ + 1 => rfl

theorem render_shape (pre n k i t : List Char) :
    pre ++ renderBlock ⟨n, k, i⟩ ++ t =
      (pre ++ ['\n']) ++ '#' :: ' ' :: (n ++ (lit1 ++ (k ++ (lit2 ++ (i ++ '\n' :: t))))) := by
  simp [renderBlock, List.append_assoc]

theorem no_hash_concat_nl (pre : List Char) (hpre : '#' ∉ pre) : '#' ∉ pre ++ ['\n'] := by
  intro hm
  rcases List.mem_append.1 hm with hm | hm
  · exact hpre hm
  · simp at hm

theorem firstMatch_block_nil (pre n k i : List Char)
    (hpre : '#' ∉ pre) (hn0 : n ≠ []) (hn : '\n' ∉ n)
    (hk0 : k ≠ []) (hk : '\n' ∉ k) (hi0 : i ≠ []) (hi : '\n' ∉ i) :
    firstMatch (pre ++ renderBlock ⟨n, k, i⟩) = some ((n, k, i ++ ['\n']), []) := by
  have hs : pre ++ renderBlock ⟨n, k, i⟩ =
      (pre ++ ['\n']) ++ '#' :: ' ' :: (n ++ (lit1 ++ (k ++ (lit2 ++ (i ++ '\n' :: []))))) := by
    have h := render_shape pre n k i []
    simpa using h
  rw [hs, firstMatch_core _ n k i [] (no_hash_concat_nl pre hpre) hn0 hn hk0 hk hi0 hi]
  rfl

theorem firstMatch_block_cons (pre n k i t : List Char)
    (hpre : '#' ∉ pre) (hn0 : n ≠ []) (hn : '\n' ∉ n)
    (hk0 : k ≠ []) (hk : '\n' ∉ k) (hi0 : i ≠ []) (hi : '\n' ∉ i) :
    firstMatch (pre ++ renderBlock ⟨n, k, i⟩ ++ '\n' :: t) =
      some ((n, k, i), '\n' :: '\n' :: t) := by
  rw [render_shape pre n k i ('\n' :: t),
    firstMatch_core _ n k i ('\n' :: t) (no_hash_concat_nl pre hpre) hn0 hn hk0 hk hi0 hi]
  simp [splitTerm]

theorem renderBlocks_length_ge (bs : List PeerBlock) :
    bs.length ≤ (renderBlocks bs).length := by
  induction bs with
  | nil => simp [renderBlocks]
  | cons b bs ih =>
    simp only [renderBlocks, List.length_append, List.length_cons, renderBlock]
    simp
    omega

theorem findAllAux_render : ∀ (bs : List PeerBlock) (fuel : Nat) (pre post : List Char),
    bs.length < fuel → '#' ∉ pre → (∀ c ∈ post, c = '\n') → (∀ b ∈ bs, blockOk b) →
    (findAllPeersAux fuel (pre ++ renderBlocks bs ++ post)).map mkParsed =
      bs.map blockParsed := by
  intro bs
  induction bs with
  | nil =>
    intro fuel pre post hf hpre hpost _
    cases fuel with
    | zero => omega
    | succ f =>
      have hno : '#' ∉ pre ++ renderBlocks [] ++ post := by
        intro hm
        simp only [renderBlocks, List.append_nil] at hm
        rcases List.mem_append.1 hm with hm | hm
        · exact hpre hm
        · have h2 := hpost _ hm
          simp at h2
      simp only [findAllPeersAux, firstMatch_no_hash _ hno]
      rfl
  | cons b bs ih =>
    intro fuel pre post hf hpre hpost hbs
    cases fuel with
    | zero => omega
    | succ f =>
      obtain ⟨hn0, hn, hsn, hk0, hk, hsk, hi0, hi, hsi⟩ := hbs b (List.mem_cons_self b bs)
      have hbs2 : ∀ x ∈ bs, blockOk x := fun x hx => hbs x (List.mem_cons_of_mem b hx)
      have hshape : pre ++ renderBlocks (b :: bs) ++ post =
          pre ++ renderBlock b ++ (renderBlocks bs ++ post) := by
        simp [renderBlocks, List.append_assoc]
      have hb : (⟨b.pname, b.pkey, b.pips⟩ : PeerBlock) = b := rfl
      have htail : renderBlocks bs ++ post = [] ∨
          ∃ t2, renderBlocks bs ++ post = '\n' :: t2 := by
        cases bs with
        | nil =>
          cases post with
          | nil => exact Or.inl rfl
          | cons c p2 =>
            refine Or.inr ⟨p2, ?_⟩
            have hc := hpost c (List.mem_cons_self c p2)
            simp [renderBlocks, hc]
        | cons b2 bs2 =>
          refine Or.inr ⟨('#' :: ' ' :: (b2.pname ++ lit1 ++ b2.pkey ++ lit2 ++ b2.pips ++
            ['\n'])) ++ (renderBlocks bs2 ++ post), ?_⟩
          simp [renderBlocks, renderBlock, List.append_assoc]
      rcases htail with htail | ⟨t2, htail⟩
      · have hbsnil : bs = [] := by
          cases bs with
          | nil => rfl
          | cons b2 bs2 =>
            exfalso
            have h3 : renderBlock b2 ++ (renderBlocks bs2 ++ post) = [] := by
              simpa [renderBlocks, List.append_assoc] using htail
            simp [renderBlock] at h3
        subst hbsnil
        have hpostnil : post = [] := by simpa [renderBlocks] using htail
        subst hpostnil
        rw [hshape]
        simp only [renderBlocks, List.nil_append, List.append_nil]
        rw [show pre ++ renderBlock b = pre ++ renderBlock ⟨b.pname, b.pkey, b.pips⟩ by rw [hb]]
        simp only [findAllPeersAux,
          firstMatch_block_nil pre b.pname b.pkey b.pips hpre hn0 hn hk0 hk hi0 hi,
          findAllPeersAux_nil, List.map_cons, List.map_nil]
        simp [mkParsed, blockParsed, hsn, hsk, pyStrip_concat_nl, hsi]
      · rw [hshape, htail]
        rw [show pre ++ renderBlock b ++ '\n' :: t2 =
          pre ++ renderBlock ⟨b.pname, b.pkey, b.pips⟩ ++ '\n' :: t2 by rw [hb]]
        simp only [findAllPeersAux,
          firstMatch_block_cons pre b.pname b.pkey b.pips t2 hpre hn0 hn hk0 hk hi0 hi,
          List.map_cons]
        have hrec : ('\n' :: '\n' :: t2) = ['\n'] ++ renderBlocks bs ++ post := by
          rw [List.append_assoc, htail]
          rfl
        rw [hrec, ih f ['\n'] post (by simpa using hf) (by simp) hpost hbs2]
        congr 1
        simp [mkParsed, blockParsed, hsn, hsk, hsi]

theorem getPeers_render (pre post : List Char) (bs : List PeerBlock) (hpre : '#' ∉ pre)
    (hpost : ∀ c ∈ post, c = '\n') (hbs : ∀ b ∈ bs, blockOk b) :
    getPeersFromConfig (pre ++ renderBlocks bs ++ post) = bs.map blockParsed := by
  unfold getPeersFromConfig findAllPeers
  apply findAllAux_render bs _ pre post _ hpre hpost hbs
  have h := renderBlocks_length_ge bs
  simp only [List.length_append]
  omega

theorem lineMid_lineLast (l : List Char) (h : lineMid l) : lineLast l := by
  obtain ⟨b2, rfl, hb⟩ := h
  exact ⟨by simp, by simp [hb]⟩

theorem linesOK_tail (l : List Char) (ls : List (List Char))
    (h : linesOK (l :: ls)) : linesOK ls := by
  cases ls with
  | nil => trivial
  | cons l2 ls2 => exact h.2

theorem linesOK_cons_cons (l l2 : List Char) (ls : List (List Char)) :
    linesOK (l :: l2 :: ls) ↔ lineMid l ∧ linesOK (l2 :: ls) := Iff.rfl

theorem linesOK_single (l : List Char) : linesOK [l] ↔ lineLast l := Iff.rfl

theorem linesOK_sublist : ∀ {L1 L2 : List (List Char)}, List.Sublist L1 L2 → linesOK L2 → linesOK L1 := by
  intro L1 L2 h
  induction h with
  | slnil => intro _; trivial
  | cons a h ih => intro h2; exact ih (linesOK_tail _ _ h2)
  | cons₂ a h ih =>
    intro h2
    rename_i T1 T2
    have hT1 : linesOK T1 := ih (linesOK_tail _ _ h2)
    cases T2 with
    | nil =>
      have hT1nil : T1 = [] := List.sublist_nil.1 h
      subst hT1nil
      exact h2
    | cons x xs =>
      rw [linesOK_cons_cons] at h2
      obtain ⟨hmid, hrest⟩ := h2
      cases T1 with
      | nil =>
        rw [linesOK_single]
        exact lineMid_lineLast a hmid
      | cons y ys =>
        rw [linesOK_cons_cons]
        exact ⟨hmid, hT1⟩

theorem removeLines_sublist (nm : List Char) :
    ∀ (L : List (List Char)) (sk : Bool), List.Sublist (removeLines nm L sk) L := by
  intro L
  induction L with
  | nil => intro sk; simp [removeLines]
  | cons l0 ls ih =>
    intro sk
    simp only [removeLines]
    split
    · exact (ih true).cons l0
    · split
      · exact (ih sk).cons l0
      · split
        · exact (ih sk).cons l0
        · split
          · exact (ih false).cons l0
          · split
            · exact (ih sk).cons l0
            · exact (ih sk).cons₂ l0

theorem removeLines_no_trigger (nm : List Char) :
    ∀ (L : List (List Char)) (sk : Bool) (l : List Char),
      l ∈ removeLines nm L sk → pyStrip l ≠ '#' :: ' ' :: nm := by
  intro L
  induction L with
  | nil => intro sk l h; simp [removeLines] at h
  | cons l0 ls ih =>
    intro sk l h
    by_cases h1 : pyStrip l0 = '#' :: ' ' :: nm
    · simp only [removeLines, if_pos h1] at h
      exact ih _ _ h
    · simp only [removeLines, if_neg h1] at h
      split at h
      · exact ih _ _ h
      · split at h
        · exact ih _ _ h
        · split at h
          · exact ih _ _ h
          · split at h
            · exact ih _ _ h
            · rcases List.mem_cons.1 h with h | h
              · subst h
                exact h1
              · exact ih _ _ h

theorem removeLines_id (nm : List Char) :
    ∀ L : List (List Char), (∀ l ∈ L, pyStrip l ≠ '#' :: ' ' :: nm) →
      removeLines nm L false = L := by
  intro L
  induction L with
  | nil => intro _; rfl
  | cons l0 ls ih =>
    intro h
    have h1 := h l0 (List.mem_cons_self l0 ls)
    simp only [removeLines, if_neg h1]
    rw [if_neg (by simp), if_neg (by simp), if_neg (by simp), if_neg (by simp)]
    rw [ih (fun l hl => h l (List.mem_cons_of_mem l0 hl))]

theorem splitLinesKeep_ne_nil (s : List Char) (h : s ≠ []) : splitLinesKeep s ≠ [] := by
  cases s with
  | nil => exact absurd rfl h
  | cons c t =>
    simp only [splitLinesKeep]
    split
    · simp
    · split <;> simp

theorem flatten_splitLinesKeep : ∀ s : List Char, (splitLinesKeep s).flatten = s := by
  intro s
  induction s with
  | nil => rfl
  | cons c t ih =>
    simp only [splitLinesKeep]
    split
    · rename_i hc
      subst hc
      simp [ih]
    · rename_i hc
      cases hsp : splitLinesKeep t with
      | nil =>
        have ht : t = [] := by
          by_contra hne
          exact splitLinesKeep_ne_nil t hne hsp
        subst ht
        simp
      | cons l ls =>
        rw [hsp] at ih
        simp only [hsp, List.flatten_cons] at ih ⊢
        simp only [List.cons_append]
        rw [ih]

theorem splitLines_linesOK : ∀ s, linesOK (splitLinesKeep s) := by
  intro s
  induction s with
  | nil => trivial
  | cons c t ih =>
    simp only [splitLinesKeep]
    split
    · rename_i hc
      cases hsp : splitLinesKeep t with
      | nil => exact ⟨by simp, by simp⟩
      | cons l ls =>
        rw [hsp] at ih
        exact ⟨⟨[], rfl, by simp⟩, ih⟩
    · rename_i hc
      cases hsp : splitLinesKeep t with
      | nil => exact ⟨by simp, by simp⟩
      | cons l ls =>
        rw [hsp] at ih
        cases ls with
        | nil =>
          obtain ⟨hne, hdl⟩ := ih
          refine ⟨by simp, ?_⟩
          cases l with
          | nil => exact absurd rfl hne
          | cons d r =>
            simp only [List.dropLast_cons₂, List.mem_cons] at *
            rintro (h | h)
            · exact hc h.symm
            · exact hdl h
        | cons l2 ls2 =>
          obtain ⟨⟨b2, hb2, hnb⟩, hrest⟩ := ih
          refine ⟨⟨c :: b2, by rw [hb2]; rfl, ?_⟩, hrest⟩
          intro hm
          rcases List.mem_cons.1 hm with hm | hm
          · exact hc hm.symm
          · exact hnb hm

theorem splitLinesKeep_last (l : List Char) :
    l ≠ [] → '\n' ∉ l.dropLast → splitLinesKeep l = [l] := by
  induction l with
  | nil => intro h0 _; exact absurd rfl h0
  | cons c t ih =>
    intro _ hd
    cases t with
    | nil =>
      simp only [splitLinesKeep]
      split
      · rename_i hc
        subst hc
        rfl
      · rfl
    | cons d r =>
      rw [List.dropLast_cons₂] at hd
      have hc : ¬ c = '\n' := by
        intro he
        exact hd (he ▸ List.mem_cons_self c (d :: r).dropLast)
      have hih := ih (by simp) (fun hm => hd (List.mem_cons_of_mem c hm))
      show (if c = '\n' then ['\n'] :: splitLinesKeep (d :: r)
        else match splitLinesKeep (d :: r) with
          | [] => [[c]]
          | l :: ls => (c :: l) :: ls) = [c :: d :: r]
      rw [if_neg hc, hih]

theorem splitLinesKeep_mid (b2 rest : List Char) (hb : '\n' ∉ b2) :
    splitLinesKeep ((b2 ++ ['\n']) ++ rest) = (b2 ++ ['\n']) :: splitLinesKeep rest := by
  induction b2 with
  | nil => simp [splitLinesKeep]
  | cons c b ih =>
    have hc : ¬ c = '\n' := fun he => hb (he ▸ List.mem_cons_self c b)
    have hih := ih (fun hm => hb (List.mem_cons_of_mem c hm))
    show (if c = '\n' then ['\n'] :: splitLinesKeep (b ++ ['\n'] ++ rest)
      else match splitLinesKeep (b ++ ['\n'] ++ rest) with
        | [] => [[c]]
        | l :: ls => (c :: l) :: ls) = ((c :: b) ++ ['\n']) :: splitLinesKeep rest
    rw [if_neg hc, hih]
    rfl

theorem splitLinesKeep_flatten (L : List (List Char)) (h : linesOK L) :
    splitLinesKeep L.flatten = L := by
  induction L with
  | nil => rfl
  | cons l ls ih =>
    cases ls with
    | nil =>
      rw [linesOK_single] at h
      simp only [List.flatten_cons, List.flatten_nil, List.append_nil]
      exact splitLinesKeep_last l h.1 h.2
    | cons l2 ls2 =>
      rw [linesOK_cons_cons] at h
      obtain ⟨⟨b2, rfl, hb⟩, hrest⟩ := h
      rw [List.flatten_cons, splitLinesKeep_mid b2 _ hb, ih hrest]

/-- C6 counterexample.  Removing the peer `r1` twice from a configuration
that held it: the first call returns ok and strips the block, and the
second call also returns ok (`remove_peer` always returns `True`; no
NotFound failure exists), contradicting the claimed ok-then-NotFound
behaviour. -/
theorem claim_C6_counterexample :
    (removePeer cfgR1 ("r1".data)).ok = true ∧
    getPeersFromConfig (removePeer cfgR1 ("r1".data)).cfg = [] ∧
    (removePeer (removePeer cfgR1 ("r1".data)).cfg ("r1".data)).ok = true := by
  decide

/-- C6 amended.  `remove_peer` always reports ok: for any configuration
content and any name, the first call returns `True`, and a second call for
the same name also returns `True` and leaves the file content of the first
call unchanged (no NotFound result exists, and no crash or corruption
occurs; removal of an absent name is the identity on content). -/
theorem claim_C6 : ∀ cfg nm,
    (removePeer cfg nm).ok = true ∧
    (removePeer (removePeer cfg nm).cfg nm).ok = true ∧
    (removePeer (removePeer cfg nm).cfg nm).cfg = (removePeer cfg nm).cfg := by
  intro cfg nm
  refine ⟨rfl, rfl, ?_⟩
  show (removeLines nm (splitLinesKeep
      ((removeLines nm (splitLinesKeep cfg) false).flatten)) false).flatten =
    (removeLines nm (splitLinesKeep cfg) false).flatten
  have h1 : linesOK (splitLinesKeep cfg) := splitLines_linesOK cfg
  have h2 := removeLines_sublist nm (splitLinesKeep cfg) false
  have h3 : linesOK (removeLines nm (splitLinesKeep cfg) false) := linesOK_sublist h2 h1
  rw [splitLinesKeep_flatten _ h3]
  rw [removeLines_id nm _ (fun l hl => removeLines_no_trigger nm _ _ l hl)]

/-- C2 counterexample.  Two records with the same name but different public
keys are not treated as the same peer: the merge keeps both, so the merged
list carries the name `A` twice, contradicting the once-per-peer claim
under the publicKey-or-name identity. -/
theorem claim_C2_counterexample :
    (mergeRouters (some [⟨("A".data), ("k1".data), ("ip1".data), true⟩])
        (some [⟨("A".data), ("k2".data), ("ip2".data), true⟩]) none []).map MergedRec.mname =
      [("A".data), ("A".data)] ∧
    (mergeRouters (some [⟨("A".data), ("k1".data), ("ip1".data), true⟩])
        (some [⟨("A".data), ("k2".data), ("ip2".data), true⟩]) none []).length = 2 := by
  decide

theorem dedupFold_nodup (src : RSource) (rs : List SrcRec) :
    ∀ acc : List MergedRec, (acc.map MergedRec.mkey).Nodup →
      ((dedupFold src acc rs).map MergedRec.mkey).Nodup := by
  induction rs with
  | nil => intro acc h; exact h
  | cons r rs ih =>
    intro acc h
    rw [show dedupFold src acc (r :: rs) = dedupFold src
      (if acc.any (fun m => decide (m.mkey = r.rkey)) then acc
       else acc ++ [srcToMerged src r]) rs from rfl]
    apply ih
    split
    · exact h
    · rename_i hany
      rw [List.map_append, List.nodup_append]
      refine ⟨h, by simp, ?_⟩
      intro x hx hx2
      simp only [srcToMerged, List.map_cons, List.map_nil, List.mem_singleton] at hx2
      subst hx2
      obtain ⟨m, hm, hmk⟩ := List.mem_map.1 hx
      exact hany (List.any_eq_true.2 ⟨m, hm, by simp [hmk]⟩)

theorem wgFold_nodup (ps : List ParsedPeer) :
    ∀ acc : List MergedRec, (acc.map MergedRec.mkey).Nodup →
      ((wgFold acc ps).map MergedRec.mkey).Nodup := by
  induction ps with
  | nil => intro acc h; exact h
  | cons p ps ih =>
    intro acc h
    rw [show wgFold acc (p :: ps) = wgFold
      (if acc.any (fun m => decide (m.mkey = p.pkey)) then acc
       else acc ++ [⟨p.pname, p.pkey, p.pip, true, RSource.wgConfig⟩]) ps from rfl]
    apply ih
    split
    · exact h
    · rename_i hany
      rw [List.map_append, List.nodup_append]
      refine ⟨h, by simp, ?_⟩
      intro x hx hx2
      simp only [List.map_cons, List.map_nil, List.mem_singleton] at hx2
      subst hx2
      obtain ⟨m, hm, hmk⟩ := List.mem_map.1 hx
      exact hany (List.any_eq_true.2 ⟨m, hm, by simp [hmk]⟩)

theorem mergeRouters_nodup (db : List SrcRec) (dj sb : Option (List SrcRec))
    (wg : List ParsedPeer) (h : (db.map SrcRec.rkey).Nodup) :
    ((mergeRouters (some db) dj sb wg).map MergedRec.mkey).Nodup := by
  have h1 : ((db.map (srcToMerged RSource.primaryDb)).map MergedRec.mkey).Nodup := by
    rw [List.map_map]
    exact h
  unfold mergeRouters
  cases dj with
  | none =>
    cases sb with
    | none => exact wgFold_nodup wg _ h1
    | some rs => exact wgFold_nodup wg _ (dedupFold_nodup _ rs _ h1)
  | some rs =>
    cases sb with
    | none => exact wgFold_nodup wg _ (dedupFold_nodup _ rs _ h1)
    | some rs2 =>
      exact wgFold_nodup wg _ (dedupFold_nodup _ rs2 _ (dedupFold_nodup _ rs _ h1))

/-- C2 amended.  The merge deduplicates by `public_key` only (a later
source contributes a record exactly when its public key is absent so far;
a record whose name matches but whose key differs is added again, and
primary-database records are appended without any check).  With the stale
copies sharing the public keys of their originals, the fixed scenario
merges to exactly A and B from the primary store, C from the secondary
store and D from the tunnel configuration, in that order; and whenever the
primary list carries pairwise distinct keys the merged keys are pairwise
distinct. -/
theorem claim_C2 :
    mergeRouters (some [recA, recB]) (some [recBstale, recC]) none [peerCstale, peerD] =
      [⟨("A".data), ("kA".data), ("10.10.0.2".data), true, RSource.primaryDb⟩,
       ⟨("B".data), ("kB".data), ("10.10.0.3".data), true, RSource.primaryDb⟩,
       ⟨("C".data), ("kC".data), ("10.10.0.4".data), true, RSource.djangoDb⟩,
       ⟨("D".data), ("kD".data), ("10.10.0.5".data), true, RSource.wgConfig⟩] ∧
    (∀ (db : List SrcRec) (dj sb : Option (List SrcRec)) (wg : List ParsedPeer),
      (db.map SrcRec.rkey).Nodup →
      ((mergeRouters (some db) dj sb wg).map MergedRec.mkey).Nodup) := by
  refine ⟨by decide, ?_⟩
  intro db dj sb wg h
  exact mergeRouters_nodup db dj sb wg h

theorem claim_C2_witness :
    ((mergeRouters (some [recA, recB]) (some [recBstale, recC]) none
      [peerCstale, peerD]).map MergedRec.mkey).Nodup :=
  claim_C2.2 [recA, recB] (some [recBstale, recC]) none [peerCstale, peerD] (by decide)

theorem splitLinesKeep_cons_nl (t : List Char) :
    splitLinesKeep ('\n' :: t) = ['\n'] :: splitLinesKeep t := by
  show (if ('\n' : Char) = '\n' then ['\n'] :: splitLinesKeep t
    else match splitLinesKeep t with
      | [] => [['\n']]
      | l :: ls => ('\n' :: l) :: ls) = ['\n'] :: splitLinesKeep t
  rw [if_pos rfl]

theorem splitLinesKeep_cons_other (c : Char) (t : List Char) (hc : ¬ c = '\n') :
    splitLinesKeep (c :: t) = (match splitLinesKeep t with
      | [] => [[c]]
      | l :: ls => (c :: l) :: ls) := by
  show (if c = '\n' then ['\n'] :: splitLinesKeep t
    else match splitLinesKeep t with
      | [] => [[c]]
      | l :: ls => (c :: l) :: ls) = _
  rw [if_neg hc]

theorem splitLinesKeep_append_term (x b : List Char) :
    splitLinesKeep ((x ++ ['\n']) ++ b) =
      splitLinesKeep (x ++ ['\n']) ++ splitLinesKeep b := by
  induction x with
  | nil =>
    rw [show (([] : List Char) ++ ['\n']) ++ b = '\n' :: b by simp]
    rw [show (([] : List Char) ++ ['\n']) = ['\n'] by simp]
    rw [splitLinesKeep_cons_nl]
    rfl
  | cons c x2 ih =>
    by_cases hc : c = '\n'
    · subst hc
      rw [show (('\n' :: x2) ++ ['\n']) ++ b = '\n' :: ((x2 ++ ['\n']) ++ b) by simp]
      rw [show ('\n' :: x2) ++ ['\n'] = '\n' :: (x2 ++ ['\n']) by simp]
      rw [splitLinesKeep_cons_nl, splitLinesKeep_cons_nl, ih]
      rfl
    · rw [show ((c :: x2) ++ ['\n']) ++ b = c :: ((x2 ++ ['\n']) ++ b) by simp]
      rw [show (c :: x2) ++ ['\n'] = c :: (x2 ++ ['\n']) by simp]
      rw [splitLinesKeep_cons_other c _ hc, splitLinesKeep_cons_other c _ hc, ih]
      cases hsp : splitLinesKeep (x2 ++ ['\n']) with
      | nil => exact absurd hsp (splitLinesKeep_ne_nil _ (by simp))
      | cons l ls => simp

theorem splitLinesKeep_append_pre (pre b : List Char)
    (h : pre = [] ∨ ∃ p2, pre = p2 ++ ['\n']) :
    splitLinesKeep (pre ++ b) = splitLinesKeep pre ++ splitLinesKeep b := by
  rcases h with rfl | ⟨p2, rfl⟩
  · rfl
  · exact splitLinesKeep_append_term p2 b

theorem lit1_eq : lit1 = '\n' :: (("[Peer]".data) ++ ('\n' :: ("PublicKey = ".data))) := rfl

theorem lit2_eq : lit2 = '\n' :: ("AllowedIPs = ".data) := rfl

theorem splitLines_renderBlock (b : PeerBlock) (rest : List Char) (hok : blockOk b) :
    splitLinesKeep (renderBlock b ++ rest) = blockLines b ++ splitLinesKeep rest := by
  obtain ⟨hn0, hn, _, hk0, hk, _, hi0, hi, _⟩ := hok
  have hshape : renderBlock b ++ rest =
      (([] ++ ['\n'])) ++ (((('#' :: ' ' :: b.pname) ++ ['\n'])) ++
        (((("[Peer]".data) ++ ['\n'])) ++
          ((((("PublicKey = ".data) ++ b.pkey) ++ ['\n'])) ++
            (((("AllowedIPs = ".data) ++ b.pips) ++ ['\n']) ++ rest)))) := by
    simp [renderBlock, lit1_eq, lit2_eq, List.append_assoc]
  rw [hshape]
  rw [splitLinesKeep_mid [] _ (by simp)]
  rw [splitLinesKeep_mid ('#' :: ' ' :: b.pname) _ (by
    intro hm
    rcases List.mem_cons.1 hm with hm | hm
    · exact absurd hm.symm (by decide)
    · rcases List.mem_cons.1 hm with hm | hm
      · exact absurd hm.symm (by decide)
      · exact hn hm)]
  rw [splitLinesKeep_mid ("[Peer]".data) _ (by decide)]
  rw [splitLinesKeep_mid (("PublicKey = ".data) ++ b.pkey) _ (by
    intro hm
    rcases List.mem_append.1 hm with hm | hm
    · exact absurd hm (by decide)
    · exact hk hm)]
  rw [splitLinesKeep_mid (("AllowedIPs = ".data) ++ b.pips) _ (by
    intro hm
    rcases List.mem_append.1 hm with hm | hm
    · exact absurd hm (by decide)
    · exact hi hm)]
  simp [blockLines]

theorem renderBlocks_append (bs1 bs2 : List PeerBlock) :
    renderBlocks (bs1 ++ bs2) = renderBlocks bs1 ++ renderBlocks bs2 := by
  induction bs1 with
  | nil => simp [renderBlocks]
  | cons b bs ih => simp [renderBlocks, ih]

theorem splitLines_renderBlocks (bs : List PeerBlock) (rest : List Char)
    (hok : ∀ b ∈ bs, blockOk b) :
    splitLinesKeep (renderBlocks bs ++ rest) =
      (bs.map blockLines).flatten ++ splitLinesKeep rest := by
  induction bs with
  | nil => simp [renderBlocks]
  | cons b bs ih =>
    rw [show renderBlocks (b :: bs) ++ rest = renderBlock b ++ (renderBlocks bs ++ rest) by
      simp [renderBlocks, List.append_assoc]]
    rw [splitLines_renderBlock b _ (hok b (List.mem_cons_self b bs))]
    rw [ih (fun x hx => hok x (List.mem_cons_of_mem b hx))]
    simp [List.append_assoc]

theorem flatten_blockLines (b : PeerBlock) : (blockLines b).flatten = renderBlock b := by
  simp [blockLines, renderBlock, lit1_eq, lit2_eq, List.append_assoc]

theorem flatten_map_blockLines (bs : List PeerBlock) :
    ((bs.map blockLines).flatten).flatten = renderBlocks bs := by
  induction bs with
  | nil => rfl
  | cons b bs ih =>
    simp only [List.map_cons, List.flatten_cons, List.flatten_append]
    rw [flatten_blockLines, ih]
    rfl

theorem pyStrip_head_ne (c : Char) (r : List Char) (d : Char) (t : List Char)
    (hc : wsp c = false) (hne : c ≠ d) : pyStrip (c :: r) ≠ d :: t := by
  obtain ⟨r2, heq⟩ := pyStrip_cons_of_not_ws c r hc
  rw [heq]
  intro h
  injection h with h1 _
  exact hne h1

theorem pyStrip_comment_line (pname : List Char) (h0 : pname ≠ [])
    (hs : pyStrip pname = pname) :
    pyStrip (('#' :: ' ' :: pname) ++ ['\n']) = '#' :: ' ' :: pname := by
  rw [pyStrip_concat_nl]
  apply pyStrip_eq_self
  · intro c hc
    have hcc : c = '#' := by simpa using hc.symm
    subst hcc
    decide
  · intro c hc
    have hgl : pname.getLast? = some c := by
      rw [show ('#' :: ' ' :: pname) = ['#', ' '] ++ pname from rfl,
        List.getLast?_append] at hc
      cases hl : pname.getLast? with
      | none =>
        exfalso
        cases pname with
        | nil => exact h0 rfl
        | cons x xs => simp at hl
      | some d =>
        rw [hl] at hc
        simpa using hc
    exact pyStrip_fix_last pname hs c hgl

theorem charsPref_ne_head (a : Char) (p : List Char) (b : Char) (s : List Char)
    (h : ¬ a = b) : charsPref (a :: p) (b :: s) = false := by
  simp [charsPref, h]

theorem blockLines_no_trigger (b : PeerBlock) (nm : List Char) (hok : blockOk b)
    (hne : b.pname ≠ nm) :
    ∀ l ∈ blockLines b, pyStrip l ≠ '#' :: ' ' :: nm := by
  obtain ⟨hn0, hn, hsn, hk0, hk, hsk, hi0, hi, hsi⟩ := hok
  intro l hl
  simp only [blockLines, List.mem_cons, List.not_mem_nil, or_false] at hl
  rcases hl with rfl | rfl | rfl | rfl | rfl
  · rw [show pyStrip ['\n'] = [] from rfl]
    simp
  · rw [pyStrip_comment_line b.pname hn0 hsn]
    intro h
    injection h with _ h2
    injection h2 with _ h3
    exact hne h3
  · exact pyStrip_head_ne '[' _ '#' _ (by decide) (by decide)
  · exact pyStrip_head_ne 'P' _ '#' _ (by decide) (by decide)
  · exact pyStrip_head_ne 'A' _ '#' _ (by decide) (by decide)

theorem preLines_no_trigger (pre nm : List Char) (hpre : '#' ∉ pre) :
    ∀ l ∈ splitLinesKeep pre, pyStrip l ≠ '#' :: ' ' :: nm := by
  intro l hl h
  have h1 : '#' ∈ pyStrip l := by rw [h]; exact List.mem_cons_self '#' _
  have h2 : '#' ∈ l := mem_of_mem_pyStrip _ _ h1
  have h3 : '#' ∈ (splitLinesKeep pre).flatten := List.mem_flatten.2 ⟨l, hl, h2⟩
  rw [flatten_splitLinesKeep] at h3
  exact hpre h3

theorem removeLines_append_pass (nm : List Char) (L1 L2 : List (List Char))
    (h : ∀ l ∈ L1, pyStrip l ≠ '#' :: ' ' :: nm) :
    removeLines nm (L1 ++ L2) false = L1 ++ removeLines nm L2 false := by
  induction L1 with
  | nil => simp
  | cons l0 ls ih =>
    have h1 := h l0 (List.mem_cons_self l0 ls)
    rw [List.cons_append]
    simp only [removeLines, if_neg h1]
    rw [if_neg (by simp), if_neg (by simp), if_neg (by simp), if_neg (by simp)]
    rw [ih (fun l hl => h l (List.mem_cons_of_mem l0 hl))]
    rfl

theorem removeLines_cons_trigger (nm l : List Char) (ls : List (List Char)) (sk : Bool)
    (h : pyStrip l = '#' :: ' ' :: nm) :
    removeLines nm (l :: ls) sk = removeLines nm ls true := by
  simp only [removeLines, if_pos h]

theorem removeLines_cons_keep (nm l : List Char) (ls : List (List Char))
    (h : pyStrip l ≠ '#' :: ' ' :: nm) :
    removeLines nm (l :: ls) false = l :: removeLines nm ls false := by
  simp only [removeLines, if_neg h]
  rw [if_neg (by simp), if_neg (by simp), if_neg (by simp), if_neg (by simp)]

theorem removeLines_cons_peer (nm l : List Char) (ls : List (List Char))
    (h1 : pyStrip l ≠ '#' :: ' ' :: nm) (h2 : pyStrip l = ("[Peer]".data)) :
    removeLines nm (l :: ls) true = removeLines nm ls true := by
  simp only [removeLines, if_neg h1]
  rw [if_pos ⟨by trivial, h2⟩]

theorem removeLines_cons_pub (nm l : List Char) (ls : List (List Char))
    (h1 : pyStrip l ≠ '#' :: ' ' :: nm) (h2 : pyStrip l ≠ ("[Peer]".data))
    (h3 : charsPref ("PublicKey".data) l = true) :
    removeLines nm (l :: ls) true = removeLines nm ls true := by
  simp only [removeLines, if_neg h1]
  rw [if_neg (fun hcon => h2 hcon.2), if_pos ⟨by trivial, h3⟩]

theorem removeLines_cons_allowed (nm l : List Char) (ls : List (List Char))
    (h1 : pyStrip l ≠ '#' :: ' ' :: nm) (h2 : pyStrip l ≠ ("[Peer]".data))
    (h3 : charsPref ("PublicKey".data) l = false)
    (h4 : charsPref ("AllowedIPs".data) l = true) :
    removeLines nm (l :: ls) true = removeLines nm ls false := by
  simp only [removeLines, if_neg h1]
  rw [if_neg (fun hcon => h2 hcon.2),
    if_neg (fun hcon => Bool.false_ne_true (h3 ▸ hcon.2)), if_pos ⟨by trivial, h4⟩]

theorem removeLines_blockLines (b : PeerBlock) (hok : blockOk b) :
    removeLines b.pname (blockLines b) false = [['\n']] := by
  obtain ⟨hn0, hn, hsn, hk0, hk, hsk, hi0, hi, hsi⟩ := hok
  show removeLines b.pname (['\n'] :: (('#' :: ' ' :: b.pname) ++ ['\n']) ::
    (("[Peer]".data) ++ ['\n']) :: (("PublicKey = ".data) ++ b.pkey ++ ['\n']) ::
    (("AllowedIPs = ".data) ++ b.pips ++ ['\n']) :: []) false = [['\n']]
  rw [removeLines_cons_keep _ _ _ (by rw [show pyStrip ['\n'] = [] from rfl]; simp)]
  rw [removeLines_cons_trigger _ _ _ _ (pyStrip_comment_line b.pname hn0 hsn)]
  rw [removeLines_cons_peer b.pname (("[Peer]".data) ++ ['\n']) _
    (show pyStrip (("[Peer]".data) ++ ['\n']) ≠ '#' :: ' ' :: b.pname from
      pyStrip_head_ne '[' _ '#' _ (by decide) (by decide))
    (by
      rw [show ("[Peer]".data) ++ ['\n'] = ("[Peer]\n".data) from rfl]
      decide)]
  rw [removeLines_cons_pub b.pname (("PublicKey = ".data) ++ b.pkey ++ ['\n']) _
    (show pyStrip (("PublicKey = ".data) ++ b.pkey ++ ['\n']) ≠ '#' :: ' ' :: b.pname from
      pyStrip_head_ne 'P' _ '#' _ (by decide) (by decide))
    (show pyStrip (("PublicKey = ".data) ++ b.pkey ++ ['\n']) ≠ ("[Peer]".data) from
      pyStrip_head_ne 'P' _ '[' _ (by decide) (by decide))
    (show charsPref ("PublicKey".data) (("PublicKey = ".data) ++ b.pkey ++ ['\n']) = true from
      charsPref_append ("PublicKey".data) ((" = ".data) ++ b.pkey ++ ['\n']))]
  rw [removeLines_cons_allowed b.pname (("AllowedIPs = ".data) ++ b.pips ++ ['\n']) _
    (show pyStrip (("AllowedIPs = ".data) ++ b.pips ++ ['\n']) ≠ '#' :: ' ' :: b.pname from
      pyStrip_head_ne 'A' _ '#' _ (by decide) (by decide))
    (show pyStrip (("AllowedIPs = ".data) ++ b.pips ++ ['\n']) ≠ ("[Peer]".data) from
      pyStrip_head_ne 'A' _ '[' _ (by decide) (by decide))
    (show charsPref ("PublicKey".data) (("AllowedIPs = ".data) ++ b.pips ++ ['\n']) = false from
      charsPref_ne_head 'P' _ 'A' _ (by decide))
    (show charsPref ("AllowedIPs".data) (("AllowedIPs = ".data) ++ b.pips ++ ['\n']) = true from
      charsPref_append ("AllowedIPs".data) ((" = ".data) ++ b.pips ++ ['\n']))]
  rfl

theorem blocksLines_no_trigger (bs : List PeerBlock) (nm : List Char)
    (hok : ∀ x ∈ bs, blockOk x) (hfresh : nm ∉ bs.map PeerBlock.pname) :
    ∀ l ∈ (bs.map blockLines).flatten, pyStrip l ≠ '#' :: ' ' :: nm := by
  intro l hl
  obtain ⟨L, hL, hlL⟩ := List.mem_flatten.1 hl
  obtain ⟨b, hb, rfl⟩ := List.mem_map.1 hL
  have hne : b.pname ≠ nm := by
    intro he
    exact hfresh (List.mem_map.2 ⟨b, hb, he⟩)
  exact blockLines_no_trigger b nm (hok b hb) hne l hlL

theorem removePeer_render (pre : List Char) (bs : List PeerBlock) (b : PeerBlock)
    (hpre : '#' ∉ pre) (hprenl : pre = [] ∨ ∃ p2, pre = p2 ++ ['\n'])
    (hbs : ∀ x ∈ bs, blockOk x) (hb : blockOk b)
    (hfresh : b.pname ∉ bs.map PeerBlock.pname) :
    (removePeer (pre ++ renderBlocks (bs ++ [b])) b.pname).cfg =
      pre ++ renderBlocks bs ++ ['\n'] := by
  show (removeLines b.pname (splitLinesKeep (pre ++ renderBlocks (bs ++ [b]))) false).flatten = _
  rw [splitLinesKeep_append_pre pre _ hprenl]
  rw [renderBlocks_append bs [b]]
  rw [show renderBlocks [b] = renderBlock b ++ [] from rfl, List.append_nil]
  rw [show renderBlocks bs ++ renderBlock b =
    renderBlocks bs ++ (renderBlock b ++ []) by simp]
  rw [splitLines_renderBlocks bs _ hbs]
  rw [splitLines_renderBlock b [] hb]
  rw [show splitLinesKeep [] = [] from rfl, List.append_nil]
  rw [removeLines_append_pass _ _ _ (preLines_no_trigger pre b.pname hpre)]
  rw [removeLines_append_pass _ _ _ (blocksLines_no_trigger bs b.pname hbs hfresh)]
  rw [removeLines_blockLines b hb]
  rw [List.flatten_append, List.flatten_append]
  rw [flatten_splitLinesKeep, flatten_map_blockLines]
  simp

theorem upToSlash_append (ip r : List Char) (h : '/' ∉ ip) :
    upToSlash (ip ++ '/' :: r) = ip := by
  unfold upToSlash
  induction ip with
  | nil => simp [List.takeWhile_cons]
  | cons c t ih =>
    rw [List.cons_append, List.takeWhile_cons]
    have hc : ¬ c = '/' := fun he => h (he ▸ List.mem_cons_self c t)
    rw [if_pos (by simp [hc])]
    rw [ih (fun hm => h (List.mem_cons_of_mem c hm))]

/-- C5.  Round trip on a well-formed configuration (an optional
newline-terminated preamble without a hash character followed by rendered
blocks with well-formed fields): adding a peer appends its block, and
listing then yields exactly the previous peers plus a peer whose name,
public key and address equal the added ones; removing that peer by name
and listing again omits it and leaves every other block byte-identical
(the file becomes the original bytes plus one leftover blank line), and no
listed peer carries the removed name. -/
theorem claim_C5 (pre : List Char) (bs : List PeerBlock) (nm pk ip : List Char)
    (hpre : '#' ∉ pre) (hprenl : pre = [] ∨ ∃ p2, pre = p2 ++ ['\n'])
    (hbs : ∀ b ∈ bs, blockOk b)
    (hnm : nm ≠ [] ∧ '\n' ∉ nm ∧ pyStrip nm = nm)
    (hpk : pk ≠ [] ∧ '\n' ∉ pk ∧ pyStrip pk = pk)
    (hip : ip ≠ [] ∧ '\n' ∉ ip ∧ pyStrip ip = ip ∧ '/' ∉ ip)
    (hfresh : nm ∉ bs.map PeerBlock.pname) :
    (addPeer (pre ++ renderBlocks bs) nm pk (some ip)).ok = true ∧
    getPeersFromConfig (addPeer (pre ++ renderBlocks bs) nm pk (some ip)).cfg =
      bs.map blockParsed ++ [⟨nm, pk, ip ++ ("/32".data), ip⟩] ∧
    (removePeer (addPeer (pre ++ renderBlocks bs) nm pk (some ip)).cfg nm).cfg =
      pre ++ renderBlocks bs ++ ['\n'] ∧
    getPeersFromConfig
        (removePeer (addPeer (pre ++ renderBlocks bs) nm pk (some ip)).cfg nm).cfg =
      bs.map blockParsed ∧
    ∀ q ∈ getPeersFromConfig
        (removePeer (addPeer (pre ++ renderBlocks bs) nm pk (some ip)).cfg nm).cfg,
      q.pname ≠ nm := by
  have hipne : ¬ ip = [] := hip.1
  have hcfg : (addPeer (pre ++ renderBlocks bs) nm pk (some ip)).cfg =
      pre ++ renderBlocks (bs ++ [⟨nm, pk, ip ++ ("/32".data)⟩]) := by
    simp only [addPeer, if_neg hipne]
    rw [renderBlocks_append bs [⟨nm, pk, ip ++ ("/32".data)⟩]]
    rw [show renderBlocks [⟨nm, pk, ip ++ ("/32".data)⟩] =
      renderBlock ⟨nm, pk, ip ++ ("/32".data)⟩ ++ [] from rfl, List.append_nil]
    rw [peerBlock, List.append_assoc]
  have hok : (addPeer (pre ++ renderBlocks bs) nm pk (some ip)).ok = true := by
    simp only [addPeer, if_neg hipne]
  have hpbOk : blockOk ⟨nm, pk, ip ++ ("/32".data)⟩ := by
    refine ⟨hnm.1, hnm.2.1, hnm.2.2, hpk.1, hpk.2.1, hpk.2.2, by simp, ?_, ?_⟩
    · intro hm
      rcases List.mem_append.1 hm with hm | hm
      · exact hip.2.1 hm
      · exact absurd hm (by decide)
    · apply pyStrip_eq_self
      · intro c hc
        cases ip with
        | nil => exact absurd rfl hip.1
        | cons d r =>
          have hdc : d = c := by simpa using hc
          subst hdc
          exact pyStrip_fix_head _ hip.2.2.1 d rfl
      · intro c hc
        rw [List.getLast?_append] at hc
        have h2 : c = '2' := by
          rw [show (("/32".data) : List Char).getLast? = some '2' from rfl] at hc
          have := hc
          simp at this
          exact this.symm
        subst h2
        decide
  have hall : ∀ b ∈ bs ++ [⟨nm, pk, ip ++ ("/32".data)⟩], blockOk b := by
    intro b hbmem
    rcases List.mem_append.1 hbmem with hbmem | hbmem
    · exact hbs b hbmem
    · rw [List.mem_singleton.1 hbmem]
      exact hpbOk
  have hslash : upToSlash (ip ++ ("/32".data)) = ip := by
    rw [show (("/32".data) : List Char) = '/' :: ("32".data) from rfl]
    exact upToSlash_append ip _ hip.2.2.2
  have hparse1 : getPeersFromConfig (addPeer (pre ++ renderBlocks bs) nm pk (some ip)).cfg =
      bs.map blockParsed ++ [⟨nm, pk, ip ++ ("/32".data), ip⟩] := by
    rw [hcfg]
    rw [show pre ++ renderBlocks (bs ++ [⟨nm, pk, ip ++ ("/32".data)⟩]) =
      pre ++ renderBlocks (bs ++ [⟨nm, pk, ip ++ ("/32".data)⟩]) ++ [] by simp]
    rw [getPeers_render pre [] _ hpre (by simp) hall]
    rw [List.map_append]
    congr 1
    simp [blockParsed, hslash]
  have hremcfg : (removePeer (addPeer (pre ++ renderBlocks bs) nm pk (some ip)).cfg nm).cfg =
      pre ++ renderBlocks bs ++ ['\n'] := by
    rw [hcfg]
    exact removePeer_render pre bs ⟨nm, pk, ip ++ ("/32".data)⟩ hpre hprenl hbs hpbOk hfresh
  have hparse2 : getPeersFromConfig
      (removePeer (addPeer (pre ++ renderBlocks bs) nm pk (some ip)).cfg nm).cfg =
      bs.map blockParsed := by
    rw [hremcfg]
    exact getPeers_render pre ['\n'] bs hpre (by simp) hbs
  refine ⟨hok, hparse1, hremcfg, hparse2, ?_⟩
  intro q hq
  rw [hparse2] at hq
  obtain ⟨b0, hb0, rfl⟩ := List.mem_map.1 hq
  intro he
  exact hfresh (List.mem_map.2 ⟨b0, hb0, he⟩)

theorem claim_C5_witness :
    (addPeer ([] ++ renderBlocks []) ("r9".data) ("k9".data) (some ("10.10.0.9".data))).ok
      = true ∧
    getPeersFromConfig
        (addPeer ([] ++ renderBlocks []) ("r9".data) ("k9".data)
          (some ("10.10.0.9".data))).cfg =
      ([] : List PeerBlock).map blockParsed ++
        [⟨("r9".data), ("k9".data), ("10.10.0.9".data) ++ ("/32".data), ("10.10.0.9".data)⟩] ∧
    (removePeer
        (addPeer ([] ++ renderBlocks []) ("r9".data) ("k9".data)
          (some ("10.10.0.9".data))).cfg ("r9".data)).cfg =
      [] ++ renderBlocks [] ++ ['\n'] ∧
    getPeersFromConfig
        (removePeer
          (addPeer ([] ++ renderBlocks []) ("r9".data) ("k9".data)
            (some ("10.10.0.9".data))).cfg ("r9".data)).cfg =
      ([] : List PeerBlock).map blockParsed ∧
    ∀ q ∈ getPeersFromConfig
        (removePeer
          (addPeer ([] ++ renderBlocks []) ("r9".data) ("k9".data)
            (some ("10.10.0.9".data))).cfg ("r9".data)).cfg,
      q.pname ≠ ("r9".data) :=
  claim_C5 [] [] ("r9".data) ("k9".data) ("10.10.0.9".data) (by decide) (Or.inl rfl)
    (by simp) (by decide) (by decide) (by decide) (by simp)
